import Mathlib

/-!
Verification of the qsoverlay circuit builder (`qsoverlay/circuit_builder.py`).

We shallowly embed the `Builder` class: per-qubit clocks (`times`), the
replay log (`circuit_list`), the logging-suspension flag (`save_flag`) and
the simulation engine's gate list (`gates`).  Python numbers are modelled
as rationals, Python values appearing in gate descriptors as the `Value`
type, and Python dicts of keyword arguments as association lists with
first-match lookup (later `dict` writes prepend, so lookup order matches
`dict` semantics).  Fallible operations return a `Res` outcome: `ok` for a
normal return, `exn` for a propagating Python exception, and `stuck` for
fuel exhaustion of the interpreter (a model artifact, never a statement
about the program).  Recursive gate expansion (`gate(builder=self, ...)`)
is modelled by composite handlers that emit the descriptor calls or direct
engine insertions the Python handler would perform; a handler may also
raise.  All state-changing code paths follow the Python source line by
line, including the exact order of dictionary lookups that can raise.
-/

namespace QSOverlay

/-- Python type objects (`bool`, `float`, `int`) that appear in the
`__lt__` assertions `gate_desc[-1] == bool` etc. of the source. -/
inductive PyTy where
  | boolTy : PyTy
  | floatTy : PyTy
  | intTy : PyTy
deriving DecidableEq, Repr

/-- A Python value as it can occur in a gate descriptor tuple or a kwargs
dict: a number (modelled as a rational), a string, a boolean, or one of
the three type objects compared against in `Builder.__lt__`. -/
inductive Value where
  | num : Rat → Value
  | str : String → Value
  | bool : Bool → Value
  | pytype : PyTy → Value
deriving DecidableEq, Repr

/-- Python truthiness (`if time:`) for the values we model. -/
def pyTruthy : Value → Bool
  | .num q => q ≠ 0
  | .str s => s ≠ ""
  | .bool b => b
  | .pytype _ => true

/-- `type(v) is bool` for a modelled value. -/
def isBoolVal : Value → Bool
  | .bool _ => true
  | _ => false

/-- `v is not False` for a modelled value (used on `return_flag`). -/
def isNotFalse (v : Value) : Bool := v ≠ Value.bool false

/-- `int(v)`: defined on booleans and numbers (truncation toward zero),
raising (`none`) on the other values. -/
def pyInt : Value → Option Int
  | .bool b => some (if b then 1 else 0)
  | .num q => some (if q < 0 then -((-q).floor) else q.floor)
  | _ => none

/-- A kwargs dict, as an association list; the first matching key wins,
and writes prepend, so this matches `dict` update/lookup behavior. -/
abbrev Kwargs := List (String × Value)

/-- Dict lookup (`kwargs[key]` / `key in kwargs`). -/
def kfind : Kwargs → String → Option Value
  | [], _ => none
  | (k, v) :: rest, key => if k = key then some v else kfind rest key

/-- `[kwargs[kw] for kw in kws]`: all lookups must succeed. -/
def findAll (m : Kwargs) : List String → Option (List Value)
  | [] => some []
  | k :: rest =>
    match kfind m k with
    | none => none
    | some v => (findAll m rest).map (v :: ·)

/-- A gate recorded in the simulation engine's circuit: the primitive's
name together with the keyword arguments it was created with. -/
abbrev SimGate := String × Kwargs

/-- One action performed by a composite-expansion handler
(`gate_functions.py` style): a recursive descriptor call `builder < desc`,
a simultaneous group call, a direct `circuit.add_gate(...)` on the engine,
or raising an exception at that point of the handler body. -/
inductive CompAct where
  | desc : List Value → CompAct
  | group : List (List Value) → CompAct
  | direct : SimGate → CompAct
  | raiseExn : CompAct

/-- The handler stored under `'function'` in the gate dictionary: a named
primitive (a string, forwarded to `circuit.add_gate(name, **kwargs)`), a
`quantumsim.circuit.Gate` subclass (instantiated then added), or a
composite expansion routine called with the builder and the resolved
kwargs. -/
inductive GateFn where
  | prim : String → GateFn
  | ctor : String → GateFn
  | composite : (Kwargs → List CompAct) → GateFn

/-- One entry of `gate_dic`: arity, ordered user parameter names, and the
handler. -/
structure GateTemplate where
  num_qubits : Nat
  user_kws : List String
  function : GateFn

/-- The scheduling part of a `gate_set` binding: `gate_time` is required
by the source (`builder_args['gate_time']`), `exec_time` is optional (its
absence is caught by the `try/except` around
`kwargs['time'] = time + builder_args['exec_time']`). -/
structure BuilderArgs where
  gate_time : Rat
  exec_time : Option Rat

/-- The `Builder` state: configuration dictionaries plus the per-circuit
mutable state created by `new_circuit`. `qubit_dic` keeps, per qubit, the
`classical` flag (the only field `new_circuit` branches on that matters
to the clock registry). -/
structure Builder where
  qubit_dic : List (String × Bool)
  gate_dic : String → Option GateTemplate
  gate_set : String × List Value → Option (Kwargs × BuilderArgs)
  times : String → Option Rat
  circuit_list : List (List Value)
  save_flag : Bool
  gates : List SimGate

/-- Outcome of a builder operation: a normal return value (`None` or a
gate handle), a propagating exception, or interpreter fuel exhaustion. -/
inductive Res where
  | ok : Option SimGate → Res
  | exn : Res
  | stuck : Res
deriving DecidableEq, Repr

/-- `self.times[qubit]` where the key is a descriptor element: only string
keys can be present in the clock dict. -/
def timesOf (ts : String → Option Rat) : Value → Option Rat
  | .str s => ts s
  | _ => none

/-- `[self.times[q] for q in qs]`: all clocks must be present. -/
def collectTimes (ts : String → Option Rat) : List Value → Option (List Rat)
  | [] => some []
  | q :: rest =>
    match timesOf ts q with
    | none => none
    | some t => (collectTimes ts rest).map (t :: ·)

/-- Python's binary `max` on rationals, kept executable for the kernel. -/
def rmax (a b : Rat) : Rat := if a ≤ b then b else a

/-- `rmax` agrees with the order-theoretic `max`. -/
theorem rmax_eq_max (a b : Rat) : rmax a b = max a b := (max_def a b).symm

/-- `max(l)` of a nonempty list (raises, i.e. `none`, on an empty one). -/
def listMax : List Rat → Option Rat
  | [] => none
  | t :: rest =>
    match listMax rest with
    | none => some t
    | some M => some (rmax t M)

/-- `max(self.times[qubit] for qubit in qubit_list)`. -/
def maxTimes (ts : String → Option Rat) (qs : List Value) : Option Rat :=
  (collectTimes ts qs).bind listMax

/-- The clock-update loop after a successful dispatch:
`self.times[qubit] = max(self.times[qubit], time + gate_time)`.
Returns the updated clock map and whether every lookup succeeded; a
missing key stops the loop with the earlier updates retained, as the
Python `KeyError` would. -/
def advanceClocks (ts : String → Option Rat) (v : Rat) :
    List Value → ((String → Option Rat) × Bool)
  | [] => (ts, true)
  | .str s :: rest =>
    match ts s with
    | some t => advanceClocks (fun x => if x = s then some (rmax t v) else ts x) v rest
    | none => (ts, false)
  | _ :: _ => (ts, false)

/-- The clock-set loop of `add_gates_simultaneous`:
`self.times[qubit] = starting_time` for every referenced qubit (all keys
were already read successfully when the starting time was computed). -/
def setClocks (ts : String → Option Rat) (v : Rat) :
    List Value → (String → Option Rat)
  | [] => ts
  | .str s :: rest => setClocks (fun x => if x = s then some v else ts x) v rest
  | _ :: rest => setClocks ts v rest

/-- The qubit-insertion loop: `kwargs['bit'] = qubit_list[0]` for a single
qubit, else `kwargs['bit'+str(j)] = qubit` for each `j`. -/
def addBitsAux (kw : Kwargs) (j : Nat) : List Value → Kwargs
  | [] => kw
  | q :: rest => addBitsAux (("bit" ++ toString j, q) :: kw) (j + 1) rest

/-- See `addBitsAux`; dispatches on `len(qubit_list) == 1`. -/
def addBits (kw : Kwargs) (qs : List Value) : Kwargs :=
  match qs with
  | [q] => ("bit", q) :: kw
  | _ => addBitsAux kw 0 qs

/-- The binding's scheduling offset: `exec_time` if present, else half the
nominal duration (the `try/except` at the firing-time computation). -/
def offs (bargs : BuilderArgs) : Rat :=
  match bargs.exec_time with
  | some e => e
  | none => bargs.gate_time / 2

/-- The pure front part of `add_gate`: binding lookup, kwargs merge
(`{**circuit_args, **kwargs}`, caller wins), firing-time computation and
qubit insertion.  Returns the kwargs as dispatched plus the clock-advance
target `base + gate_time` (`none` when the caller supplied an explicit
time, in which case the clocks are not advanced).  `none` overall is a
propagating exception before any state was mutated. -/
def resolveGate (b : Builder) (name : String) (qs : List Value) (kw : Kwargs) :
    Option (Kwargs × Option Rat) :=
  match b.gate_set (name, qs) with
  | none => none
  | some (cargs, bargs) =>
    let merged : Kwargs := kw ++ cargs
    if (kfind merged "time").isSome then
      some (addBits merged qs, none)
    else
      match maxTimes b.times qs with
      | none => none
      | some base =>
        some (addBits (("time", .num (base + offs bargs)) :: merged) qs,
              some (base + bargs.gate_time))

/-- The replay-log entry appended by `add_gate`:
`(gate_name, *qubit_list, *user_data)` with the return flag appended when
it `is not False`. -/
def mkLogEntry (name : String) (qs : List Value) (ud : List Value) (flag : Value) :
    List Value :=
  Value.str name :: qs ++ ud ++ (if isNotFalse flag then [flag] else [])

/-- The logging step: when `save_flag` is set, resolve the template's user
parameters from the dispatched kwargs and append the log entry; a missing
parameter raises before anything was appended. -/
def logStage (b : Builder) (name : String) (qs : List Value) (flag : Value)
    (merged : Kwargs) (tmpl : GateTemplate) : Option Builder :=
  if b.save_flag then
    match findAll merged tmpl.user_kws with
    | none => none
    | some ud =>
      some { b with circuit_list := b.circuit_list ++ [mkLogEntry name qs ud flag] }
  else some b

/-- `self.circuit.gates[-int(return_flag)]`: Python negative indexing into
the engine's gate list. -/
def pyNegIndex (l : List SimGate) (k : Int) : Option SimGate :=
  if 0 ≤ -k then l.get? (-k).toNat
  else if k.toNat ≤ l.length then l.get? (l.length - k.toNat) else none

/-- The tail of `add_gate`: `return self.circuit.gates[-int(return_flag)]`
when the flag `is not False`, else return `None`. -/
def returnStage (b : Builder) (flag : Value) : Builder × Res :=
  if isNotFalse flag then
    match pyInt flag with
    | none => (b, .exn)
    | some k =>
      match pyNegIndex b.gates k with
      | none => (b, .exn)
      | some g => (b, .ok (some g))
  else (b, .ok none)

/-- Clock update plus return value after a successful dispatch. -/
def finishGate (b : Builder) (advance : Option Rat) (flag : Value)
    (qs : List Value) : Builder × Res :=
  match advance with
  | none => returnStage b flag
  | some v =>
    let (ts, ok) := advanceClocks b.times v qs
    let b5 := { b with times := ts }
    if ok then returnStage b5 flag else (b5, .exn)

/-- A call into the builder: `add_gate`, the `__lt__` descriptor form, a
simultaneous group, or the body of a composite handler. -/
inductive Call where
  | gate : String → List Value → Value → Kwargs → Call
  | lt : List Value → Call
  | simult : List (List Value) → Call
  | acts : List CompAct → Call

/-- Referenced qubits of a simultaneous group, in iteration order:
`gate_desc[j] for gate_desc in group for j in range(1, num_qubits+1)`;
`none` is the exception raised by a bad head, an unknown gate or a too
short descriptor. -/
def groupQubits (b : Builder) : List (List Value) → Option (List Value)
  | [] => some []
  | desc :: rest =>
    match desc.head? with
    | some (.str name) =>
      match b.gate_dic name with
      | some tmpl =>
        if tmpl.num_qubits + 1 ≤ desc.length then
          (groupQubits b rest).map ((desc.drop 1).take tmpl.num_qubits ++ ·)
        else none
      | none => none
    | _ => none

/-- Decode the trailing fields of a `__lt__` descriptor by total length:
the `(return_flag, time)` pair, or `none` for a failing assertion /
mismatched length.  Mirrors lines 233-246 of `circuit_builder.py`: note
that the three-extra-fields branch compares the trailing elements against
the *type objects* `bool` and `float`/`int` with `==`, so only descriptors
literally carrying those type objects pass its assertions. -/
def decodeTail (m nq : Nat) (desc : List Value) : Option (Value × Option Value) :=
  if desc.length = m + nq + 2 then
    match desc.getLast? with
    | some v => if isBoolVal v then some (v, none) else some (.bool false, some v)
    | none => none
  else if desc.length = m + nq + 3 then
    match desc.getLast?, desc.get? (desc.length - 2) with
    | some v1, some v2 =>
      if v1 = .pytype .boolTy ∧ (v2 = .pytype .floatTy ∨ v2 = .pytype .intTy) then
        some (v1, some v2)
      else none
    | _, _ => none
  else if desc.length = m + nq + 1 then some (.bool false, none)
  else none

/-- The fuel-indexed interpreter for the builder's mutually recursive
operations.  Fuel decreases at every recursive call; `stuck` marks
exhaustion. -/
def run : Nat → Builder → Call → Builder × Res
  | 0, b, _ => (b, .stuck)
  | n + 1, b, c =>
    match c with
    | .gate name qs flag kw =>
      match resolveGate b name qs kw with
      | none => (b, .exn)
      | some (merged, advance) =>
        match b.gate_dic name with
        | none => (b, .exn)
        | some tmpl =>
          match logStage b name qs flag merged tmpl with
          | none => (b, .exn)
          | some b1 =>
            let prev := b1.save_flag
            let b2 := { b1 with save_flag := false }
            let dr : Builder × Res :=
              match tmpl.function with
              | .prim g => ({ b2 with gates := b2.gates ++ [(g, merged)] }, .ok none)
              | .ctor g => ({ b2 with gates := b2.gates ++ [(g, merged)] }, .ok none)
              | .composite f => run n b2 (.acts (f merged))
            let b4 := { dr.1 with save_flag := prev }
            match dr.2 with
            | .exn => (b4, .exn)
            | .stuck => (b4, .stuck)
            | .ok _ => finishGate b4 advance flag qs
    | .lt desc =>
      match desc.head? with
      | some (.str name) =>
        match b.gate_dic name with
        | none => (b, .exn)
        | some tmpl =>
          match decodeTail tmpl.user_kws.length tmpl.num_qubits desc with
          | none => (b, .exn)
          | some (flag, t?) =>
            let qs := (desc.drop 1).take tmpl.num_qubits
            let kw0 := tmpl.user_kws.zip (desc.drop (tmpl.num_qubits + 1))
            let kw :=
              match t? with
              | some t => if pyTruthy t then ("time", t) :: kw0 else kw0
              | none => kw0
            run n b (.gate name qs flag kw)
      | _ => (b, .exn)
    | .simult group =>
      match groupQubits b group with
      | none => (b, .exn)
      | some qs =>
        match collectTimes b.times qs with
        | none => (b, .exn)
        | some l =>
          match listMax l with
          | none => (b, .exn)
          | some start =>
            run n { b with times := setClocks b.times start qs }
              (.acts (group.map .desc))
    | .acts l =>
      match l with
      | [] => (b, .ok none)
      | a :: rest =>
        let (b', r) :=
          match a with
          | .desc d => run n b (.lt d)
          | .group g => run n b (.simult g)
          | .direct sg => ({ b with gates := b.gates ++ [sg] }, .ok none)
          | .raiseExn => (b, .exn)
        match r with
        | .ok _ => run n b' (.acts rest)
        | .exn => (b', .exn)
        | .stuck => (b', .stuck)

/-- Clock initialisation of `new_circuit`: every non-classical qubit of
`qubit_dic` starts at time 0 (classical bits get no clock). -/
def initTimes : List (String × Bool) → (String → Option Rat)
  | [] => fun _ => none
  | (q, classical) :: rest =>
    let ts := initTimes rest
    if classical then ts else fun x => if x = q then some 0 else ts x

/-- `Builder.__init__` followed by `new_circuit`: fresh log, fresh engine
circuit, logging enabled, clocks initialised. -/
def builderInit (qd : List (String × Bool)) (gd : String → Option GateTemplate)
    (gs : String × List Value → Option (Kwargs × BuilderArgs)) : Builder :=
  { qubit_dic := qd, gate_dic := gd, gate_set := gs,
    times := initTimes qd, circuit_list := [], save_flag := true, gates := [] }

/-- `v *= -1` on a descriptor element during reversal: negation for
numbers, Python's `bool * -1` for booleans, and the empty string for
strings (`'a' * -1 == ''`); a type object raises. -/
def pyMulNeg1 : Value → Option Value
  | .num q => some (.num (-q))
  | .bool b => some (.num (-(if b then (1 : Rat) else 0)))
  | .str _ => some (.str "")
  | .pytype _ => none

/-- One step of the reversal transformation (lines 109-119): negate the
angle entry of a descriptor whose template declares an `angle` user
parameter, at position `num_qubits + 1 + angle_index`. -/
def reverseStep (b : Builder) (desc : List Value) : Option (List Value) :=
  match desc.head? with
  | some (.str name) =>
    match b.gate_dic name with
    | some tmpl =>
      if "angle" ∈ tmpl.user_kws then
        let i := tmpl.num_qubits + 1 + tmpl.user_kws.indexOf "angle"
        match desc.get? i with
        | some v => (pyMulNeg1 v).map (desc.set i ·)
        | none => none
      else some desc
    | none => none
  | _ => none

/-- Map a fallible step over a list, failing as a whole on the first
failure. -/
def mapOpt (f : α → Option β) : List α → Option (List β)
  | [] => some []
  | a :: rest =>
    match f a with
    | none => none
    | some b => (mapOpt f rest).map (b :: ·)

/-- `make_reverse_circuit` (without the optional `finalize`, which only
reorders the engine's gate list): transform the reversed log, build a
fresh builder over the same configuration, and replay the transformed
log through `add_circuit_list` (each entry via `self < gate_desc`). -/
def make_reverse_circuit (fuel : Nat) (b : Builder) : Builder × Res :=
  match mapOpt (reverseStep b) b.circuit_list.reverse with
  | none => (b, .exn)
  | some rl =>
    run fuel (builderInit b.qubit_dic b.gate_dic b.gate_set) (.acts (rl.map .desc))

/-! ### Lemmas about kwargs dictionaries -/

theorem kfind_append (l₁ l₂ : Kwargs) (k : String) :
    kfind (l₁ ++ l₂) k =
      match kfind l₁ k with
      | some v => some v
      | none => kfind l₂ k := by
  induction l₁ with
  | nil => simp [kfind]
  | cons p rest ih =>
    obtain ⟨k', v'⟩ := p
    by_cases h : k' = k <;> simp [kfind, h, ih]

theorem kfind_append_left (l₁ l₂ : Kwargs) (k : String)
    (h : (kfind l₁ k).isSome) : kfind (l₁ ++ l₂) k = kfind l₁ k := by
  rw [kfind_append]
  cases hf : kfind l₁ k with
  | none => rw [hf] at h; simp at h
  | some v => rfl

theorem kfind_append_right (l₁ l₂ : Kwargs) (k : String)
    (h : kfind l₁ k = none) : kfind (l₁ ++ l₂) k = kfind l₂ k := by
  rw [kfind_append, h]

theorem kfind_cons_ne (p : String × Value) (rest : Kwargs) (k : String)
    (h : p.1 ≠ k) : kfind (p :: rest) k = kfind rest k := by
  obtain ⟨k', v'⟩ := p
  simp_all [kfind]

theorem kfind_zip_not_mem (kws : List String) (ps : List Value) (k : String)
    (h : k ∉ kws) : kfind (kws.zip ps) k = none := by
  induction kws generalizing ps with
  | nil => simp [kfind]
  | cons k' rest ih =>
    cases ps with
    | nil => simp [kfind]
    | cons p ps' =>
      simp only [List.mem_cons, not_or] at h
      rw [List.zip_cons_cons, kfind_cons_ne _ _ _ (Ne.symm h.1)]
      exact ih ps' h.2

theorem kfind_zip_isSome (kws : List String) (ps : List Value) (k : String)
    (hmem : k ∈ kws) (hlen : ps.length = kws.length) :
    (kfind (kws.zip ps) k).isSome := by
  induction kws generalizing ps with
  | nil => simp at hmem
  | cons k' rest ih =>
    cases ps with
    | nil => simp at hlen
    | cons p ps' =>
      by_cases h : k' = k
      · rw [List.zip_cons_cons]
        simp [kfind, h]
      · rcases List.mem_cons.mp hmem with h' | h'
        · exact absurd h'.symm h
        · simp only [List.length_cons, Nat.succ.injEq] at hlen
          rw [List.zip_cons_cons, kfind_cons_ne _ _ _ h]
          exact ih ps' h' hlen

theorem kfind_addBitsAux (kw : Kwargs) (j : Nat) (qs : List Value) (k : String)
    (h : ∀ i : Nat, k ≠ "bit" ++ toString i) :
    kfind (addBitsAux kw j qs) k = kfind kw k := by
  induction qs generalizing kw j with
  | nil => rfl
  | cons q rest ih =>
    rw [addBitsAux, ih, kfind_cons_ne]
    exact fun hh => h j hh.symm

theorem kfind_addBits (kw : Kwargs) (qs : List Value) (k : String)
    (hb : k ≠ "bit") (h : ∀ i : Nat, k ≠ "bit" ++ toString i) :
    kfind (addBits kw qs) k = kfind kw k := by
  match qs with
  | [q] => exact kfind_cons_ne _ _ _ (Ne.symm hb)
  | [] => rfl
  | q₁ :: q₂ :: rest => exact kfind_addBitsAux kw 0 (q₁ :: q₂ :: rest) k h

theorem findAll_congr (m₁ m₂ : Kwargs) (kws : List String)
    (h : ∀ k ∈ kws, kfind m₂ k = kfind m₁ k) :
    findAll m₂ kws = findAll m₁ kws := by
  induction kws with
  | nil => rfl
  | cons k rest ih =>
    have hk := h k (List.mem_cons_self k rest)
    have hr := ih fun k' hk' => h k' (List.mem_cons_of_mem _ hk')
    simp [findAll, hk, hr]

theorem findAll_isSome (m : Kwargs) (kws : List String) (ud : List Value)
    (h : findAll m kws = some ud) : ∀ k ∈ kws, (kfind m k).isSome := by
  induction kws generalizing ud with
  | nil => simp
  | cons k rest ih =>
    intro k' hk'
    rw [findAll] at h
    cases hf : kfind m k with
    | none => rw [hf] at h; simp at h
    | some v =>
      rw [hf] at h
      cases hr : findAll m rest with
      | none => rw [hr] at h; simp at h
      | some ud' =>
        rcases List.mem_cons.mp hk' with rfl | hmem
        · simp [hf]
        · exact ih ud' hr k' hmem

theorem findAll_zip_self (kws : List String) (ps : List Value)
    (hnd : kws.Nodup) (hlen : ps.length = kws.length) :
    findAll (kws.zip ps) kws = some ps := by
  induction kws generalizing ps with
  | nil => cases ps with
    | nil => rfl
    | cons p ps' => simp at hlen
  | cons k rest ih =>
    cases ps with
    | nil => simp at hlen
    | cons p ps' =>
      simp only [List.length_cons, Nat.succ.injEq] at hlen
      have hnd' := List.nodup_cons.mp hnd
      have hzip : findAll ((k, p) :: rest.zip ps') rest = findAll (rest.zip ps') rest := by
        apply findAll_congr
        intro k' hk'
        refine kfind_cons_ne _ _ _ (fun hh => hnd'.1 ?_)
        simp only at hh
        exact hh ▸ hk'
      rw [List.zip_cons_cons, findAll]
      simp [kfind, hzip, ih ps' hnd'.2 hlen]

/-! ### String disjointness for the reserved kwargs keys -/

theorem bit_append_ne_time (s : String) : ("bit" ++ s) ≠ "time" := by
  obtain ⟨data⟩ := s
  intro h
  have h2 : ("bit" ++ String.mk data).data = "time".data := congrArg String.data h
  simp only [String.data_append] at h2
  simp at h2

theorem bit_append_ne_angle (s : String) : ("bit" ++ s) ≠ "angle" := by
  obtain ⟨data⟩ := s
  intro h
  have h2 : ("bit" ++ String.mk data).data = "angle".data := congrArg String.data h
  simp only [String.data_append] at h2
  simp at h2

/-! ### Lemmas about the clock registry operations -/

theorem rmax_right_idem (a b : Rat) : rmax (rmax a b) b = rmax a b := by
  simp only [rmax_eq_max]
  rw [max_assoc, max_self]

theorem collectTimes_isSome_mono (ts ts' : String → Option Rat)
    (h : ∀ x, (ts x).isSome → (ts' x).isSome) (qs : List Value)
    (hs : (collectTimes ts qs).isSome) : (collectTimes ts' qs).isSome := by
  induction qs with
  | nil => simp [collectTimes]
  | cons q rest ih =>
    rw [collectTimes] at hs ⊢
    cases q with
    | str s =>
      simp only [timesOf] at hs ⊢
      cases hts : ts s with
      | none => rw [hts] at hs; simp at hs
      | some t =>
        rw [hts] at hs
        have : (ts' s).isSome := h s (by simp [hts])
        cases hts' : ts' s with
        | none => rw [hts'] at this; simp at this
        | some t' =>
          cases hr : collectTimes ts rest with
          | none => rw [hr] at hs; simp at hs
          | some l => simpa using ih (by simp [hr])
    | num q => simp [timesOf] at hs
    | bool b => simp [timesOf] at hs
    | pytype p => simp [timesOf] at hs

theorem advanceClocks_spec (v : Rat) (qs : List Value) (ts : String → Option Rat)
    (hs : (collectTimes ts qs).isSome) :
    (advanceClocks ts v qs).2 = true ∧
    ∀ s, (advanceClocks ts v qs).1 s =
      if Value.str s ∈ qs then (ts s).map (fun t => rmax t v) else ts s := by
  induction qs generalizing ts with
  | nil => simp [advanceClocks, collectTimes]
  | cons q rest ih =>
    rw [collectTimes] at hs
    cases q with
    | str s₀ =>
      simp only [timesOf] at hs
      cases hts : ts s₀ with
      | none => rw [hts] at hs; simp at hs
      | some t₀ =>
        rw [hts] at hs
        have hrest : (collectTimes ts rest).isSome := by
          cases hr : collectTimes ts rest with
          | none => rw [hr] at hs; simp at hs
          | some l => simp
        set ts' := fun x => if x = s₀ then some (rmax t₀ v) else ts x with hts'
        have hrest' : (collectTimes ts' rest).isSome := by
          apply collectTimes_isSome_mono ts ts' _ rest hrest
          intro x hx
          by_cases hxs : x = s₀ <;> simp [hts', hxs, hx]
        obtain ⟨hok, hpt⟩ := ih ts' hrest'
        rw [advanceClocks, hts]
        refine ⟨hok, fun s => ?_⟩
        rw [hpt s]
        by_cases hss : s = s₀
        · subst hss
          by_cases hmem : Value.str s ∈ rest
          · simp [hmem, hts', hts, rmax_right_idem]
          · simp [hmem, hts', hts]
        · have hsne : Value.str s ≠ Value.str s₀ := by simp [hss]
          by_cases hmem : Value.str s ∈ rest
          · simp [hmem, hts', hss, hsne]
          · simp [hmem, hts', hss, hsne]
    | num q => simp [timesOf] at hs
    | bool b => simp [timesOf] at hs
    | pytype p => simp [timesOf] at hs

theorem setClocks_spec (v : Rat) (qs : List Value) (ts : String → Option Rat) :
    ∀ s, setClocks ts v qs s = if Value.str s ∈ qs then some v else ts s := by
  induction qs generalizing ts with
  | nil => simp [setClocks]
  | cons q rest ih =>
    intro s
    cases q with
    | str s₀ =>
      rw [setClocks, ih]
      by_cases hss : s = s₀
      · subst hss
        by_cases hmem : Value.str s ∈ rest <;> simp [hmem]
      · have hsne : Value.str s ≠ Value.str s₀ := by simp [hss]
        by_cases hmem : Value.str s ∈ rest <;> simp [hmem, hss, hsne]
    | num q =>
      rw [show setClocks ts v (Value.num q :: rest) = setClocks ts v rest from rfl, ih]
      refine if_congr ⟨List.mem_cons_of_mem _, fun h => ?_⟩ rfl rfl
      rcases List.mem_cons.mp h with h' | h'
      · exact Value.noConfusion h'
      · exact h'
    | bool b =>
      rw [show setClocks ts v (Value.bool b :: rest) = setClocks ts v rest from rfl, ih]
      refine if_congr ⟨List.mem_cons_of_mem _, fun h => ?_⟩ rfl rfl
      rcases List.mem_cons.mp h with h' | h'
      · exact Value.noConfusion h'
      · exact h'
    | pytype p =>
      rw [show setClocks ts v (Value.pytype p :: rest) = setClocks ts v rest from rfl, ih]
      refine if_congr ⟨List.mem_cons_of_mem _, fun h => ?_⟩ rfl rfl
      rcases List.mem_cons.mp h with h' | h'
      · exact Value.noConfusion h'
      · exact h'

theorem listMax_eq_none (l : List Rat) : listMax l = none ↔ l = [] := by
  cases l with
  | nil => simp [listMax]
  | cons t rest =>
    cases hr : listMax rest <;> simp [listMax, hr]

theorem listMax_spec (l : List Rat) (M : Rat) (h : listMax l = some M) :
    M ∈ l ∧ ∀ t ∈ l, t ≤ M := by
  induction l generalizing M with
  | nil => simp [listMax] at h
  | cons t rest ih =>
    rw [listMax] at h
    cases hr : listMax rest with
    | none =>
      rw [hr] at h
      obtain rfl : t = M := by simpa using h
      obtain rfl : rest = [] := (listMax_eq_none rest).mp hr
      simp
    | some M' =>
      rw [hr] at h
      obtain rfl : rmax t M' = M := by simpa using h
      obtain ⟨hmem, hle⟩ := ih M' hr
      rw [rmax_eq_max]
      constructor
      · rcases max_cases t M' with ⟨heq, _⟩ | ⟨heq, _⟩
        · rw [heq]; exact List.mem_cons_self _ _
        · rw [heq]; exact List.mem_cons_of_mem _ hmem
      · intro x hx
        rcases List.mem_cons.mp hx with rfl | hx'
        · exact le_max_left _ _
        · exact le_trans (hle x hx') (le_max_right _ _)

/-! ### List positioning lemmas used by the descriptor parser and reversal -/

theorem take_len_append (l₁ l₂ : List α) : (l₁ ++ l₂).take l₁.length = l₁ := by
  induction l₁ with
  | nil => simp
  | cons a rest ih => simp [ih]

theorem drop_len_append (l₁ l₂ : List α) : (l₁ ++ l₂).drop l₁.length = l₂ := by
  induction l₁ with
  | nil => simp
  | cons a rest ih => simp [ih]

theorem get?_append_len (l₁ l₂ : List α) (i : Nat) :
    (l₁ ++ l₂).get? (l₁.length + i) = l₂.get? i := by
  induction l₁ with
  | nil => simp
  | cons a rest ih =>
    simp only [List.cons_append, List.length_cons, Nat.succ_add, List.get?_cons_succ]
    exact ih

theorem set_append_len (l₁ l₂ : List α) (i : Nat) (v : α) :
    (l₁ ++ l₂).set (l₁.length + i) v = l₁ ++ l₂.set i v := by
  induction l₁ with
  | nil => simp
  | cons a rest ih =>
    simp only [List.cons_append, List.length_cons, Nat.succ_add, List.set_cons_succ]
    rw [ih]

theorem zip_append_of_len (kws : List String) (ps extra : List Value)
    (hlen : ps.length = kws.length) : kws.zip (ps ++ extra) = kws.zip ps := by
  induction kws generalizing ps with
  | nil => simp
  | cons k rest ih =>
    cases ps with
    | nil => simp at hlen
    | cons p ps' =>
      simp only [List.length_cons, Nat.succ.injEq] at hlen
      simp [List.zip_cons_cons, ih ps' hlen]

/-! ### Field-preservation lemmas for the stages of `add_gate` -/

theorem mkLogEntry_false (name : String) (qs ud : List Value) :
    mkLogEntry name qs ud (.bool false) = Value.str name :: qs ++ ud := by
  simp [mkLogEntry, isNotFalse]

theorem returnStage_fst (b : Builder) (flag : Value) : (returnStage b flag).1 = b := by
  rw [returnStage]
  split
  · split
    · rfl
    · split <;> rfl
  · rfl

theorem returnStage_false (b : Builder) : returnStage b (.bool false) = (b, .ok none) := by
  rw [returnStage]
  simp [isNotFalse]

theorem finishGate_fst (b : Builder) (advance : Option Rat) (flag : Value)
    (qs : List Value) :
    (finishGate b advance flag qs).1.circuit_list = b.circuit_list ∧
    (finishGate b advance flag qs).1.save_flag = b.save_flag ∧
    (finishGate b advance flag qs).1.gates = b.gates := by
  rw [finishGate.eq_def]
  cases advance with
  | none => simp [returnStage_fst]
  | some v =>
    by_cases hok : (advanceClocks b.times v qs).2 = true
    · simp [hok, returnStage_fst]
    · simp only [Bool.not_eq_true] at hok
      simp [hok]

theorem logStage_eq_none (b : Builder) (name : String) (qs : List Value)
    (flag : Value) (merged : Kwargs) (tmpl : GateTemplate)
    (h : b.save_flag = false) : logStage b name qs flag merged tmpl = some b := by
  simp [logStage, h]

theorem logStage_eq_some (b : Builder) (name : String) (qs : List Value)
    (flag : Value) (merged : Kwargs) (tmpl : GateTemplate) (ud : List Value)
    (hsf : b.save_flag = true) (hud : findAll merged tmpl.user_kws = some ud) :
    logStage b name qs flag merged tmpl =
      some { b with circuit_list := b.circuit_list ++ [mkLogEntry name qs ud flag] } := by
  simp [logStage, hsf, hud]

theorem logStage_fields (b b1 : Builder) (name : String) (qs : List Value)
    (flag : Value) (merged : Kwargs) (tmpl : GateTemplate)
    (h : logStage b name qs flag merged tmpl = some b1) :
    b1.save_flag = b.save_flag ∧ b1.gates = b.gates ∧ b1.times = b.times := by
  rw [logStage] at h
  by_cases hsf : b.save_flag = true
  · rw [if_pos hsf] at h
    cases hud : findAll merged tmpl.user_kws with
    | none => rw [hud] at h; simp at h
    | some ud =>
      rw [hud] at h
      obtain rfl : _ = b1 := Option.some.inj h
      exact ⟨rfl, rfl, rfl⟩
  · simp only [Bool.not_eq_true] at hsf
    rw [if_neg (by simp [hsf])] at h
    obtain rfl : b = b1 := Option.some.inj h
    exact ⟨rfl, rfl, rfl⟩

/-! ### Global invariants of the interpreter -/

/-- While logging is suspended (`save_flag = False`), no builder operation
appends to the replay log, and the suspension flag stays down: the
re-entrancy guard of `add_gate` makes every recursive call run with the
flag down, and each nested `add_gate` restores the flag it saw on entry. -/
theorem run_noSave (fuel : Nat) : ∀ (b : Builder) (c : Call),
    b.save_flag = false →
    (run fuel b c).1.save_flag = false ∧
    (run fuel b c).1.circuit_list = b.circuit_list := by
  induction fuel with
  | zero => intro b c h; simp [run, h]
  | succ n ih =>
    intro b c h
    cases c with
    | gate name qs flag kw =>
      rw [run]
      cases hrg : resolveGate b name qs kw with
      | none => simp [h]
      | some r =>
        obtain ⟨merged, advance⟩ := r
        dsimp only
        cases hgd : b.gate_dic name with
        | none => simp [h]
        | some tmpl =>
          dsimp only
          rw [logStage_eq_none b name qs flag merged tmpl h]
          dsimp only
          cases hfn : tmpl.function with
          | prim g =>
            dsimp only
            constructor
            · rw [(finishGate_fst _ _ _ _).2.1]; exact h
            · exact (finishGate_fst _ _ _ _).1
          | ctor g =>
            dsimp only
            constructor
            · rw [(finishGate_fst _ _ _ _).2.1]; exact h
            · exact (finishGate_fst _ _ _ _).1
          | composite f =>
            dsimp only
            rcases hE : run n { b with save_flag := false } (.acts (f merged))
              with ⟨b3, r⟩
            have hIH := ih { b with save_flag := false } (.acts (f merged)) rfl
            rw [hE] at hIH
            dsimp only
            cases r with
            | ok v =>
              dsimp only
              constructor
              · rw [(finishGate_fst _ _ _ _).2.1]; exact h
              · exact ((finishGate_fst _ _ _ _).1).trans hIH.2
            | exn => exact ⟨h, hIH.2⟩
            | stuck => exact ⟨h, hIH.2⟩
    | lt desc =>
      rw [run]
      cases hh : desc.head? with
      | none => simp [h]
      | some v =>
        cases v with
        | str name =>
          dsimp only
          cases hgd : b.gate_dic name with
          | none => simp [h]
          | some tmpl =>
            dsimp only
            cases hdt : decodeTail tmpl.user_kws.length tmpl.num_qubits desc with
            | none => simp [h]
            | some ft =>
              obtain ⟨flag, t?⟩ := ft
              dsimp only
              exact ih b _ h
        | num q => simp [h]
        | bool bb => simp [h]
        | pytype p => simp [h]
    | simult group =>
      rw [run]
      cases hgq : groupQubits b group with
      | none => simp [h]
      | some qs =>
        dsimp only
        cases hct : collectTimes b.times qs with
        | none => simp [h]
        | some l =>
          dsimp only
          cases hlm : listMax l with
          | none => simp [h]
          | some start =>
            dsimp only
            exact ih { b with times := setClocks b.times start qs } _ h
    | acts l =>
      cases l with
      | nil => rw [run]; exact ⟨h, rfl⟩
      | cons a rest =>
        cases a with
        | desc d =>
          rw [run]
          dsimp only
          rcases hE : run n b (.lt d) with ⟨b', r⟩
          have hIH := ih b (.lt d) h
          rw [hE] at hIH
          dsimp only
          cases r with
          | ok v =>
            dsimp only
            have hIH2 := ih b' (.acts rest) hIH.1
            exact ⟨hIH2.1, hIH2.2.trans hIH.2⟩
          | exn => exact hIH
          | stuck => exact hIH
        | group g =>
          rw [run]
          dsimp only
          rcases hE : run n b (.simult g) with ⟨b', r⟩
          have hIH := ih b (.simult g) h
          rw [hE] at hIH
          dsimp only
          cases r with
          | ok v =>
            dsimp only
            have hIH2 := ih b' (.acts rest) hIH.1
            exact ⟨hIH2.1, hIH2.2.trans hIH.2⟩
          | exn => exact hIH
          | stuck => exact hIH
        | direct sg =>
          rw [run]
          have hIH2 := ih { b with gates := b.gates ++ [sg] } (.acts rest) h
          exact ⟨hIH2.1, hIH2.2⟩
        | raiseExn => rw [run]; exact ⟨h, rfl⟩

/-! ### Characterizations of `resolveGate` and the gate branches of `run` -/

theorem maxTimes_collect_isSome (ts : String → Option Rat) (qs : List Value)
    (base : Rat) (h : maxTimes ts qs = some base) : (collectTimes ts qs).isSome := by
  rw [maxTimes] at h
  cases hc : collectTimes ts qs with
  | none => rw [hc] at h; simp at h
  | some l => simp

theorem resolveGate_eq_noTime (b : Builder) (name : String) (qs : List Value)
    (kw cargs : Kwargs) (bargs : BuilderArgs) (base : Rat)
    (hgs : b.gate_set (name, qs) = some (cargs, bargs))
    (ht : kfind (kw ++ cargs) "time" = none)
    (hmax : maxTimes b.times qs = some base) :
    resolveGate b name qs kw =
      some (addBits (("time", .num (base + offs bargs)) :: (kw ++ cargs)) qs,
            some (base + bargs.gate_time)) := by
  simp [resolveGate, hgs, ht, hmax]

theorem resolveGate_eq_time (b : Builder) (name : String) (qs : List Value)
    (kw cargs : Kwargs) (bargs : BuilderArgs) (tv : Value)
    (hgs : b.gate_set (name, qs) = some (cargs, bargs))
    (ht : kfind (kw ++ cargs) "time" = some tv) :
    resolveGate b name qs kw = some (addBits (kw ++ cargs) qs, none) := by
  simp [resolveGate, hgs, ht]

theorem resolveGate_find (b : Builder) (name : String) (qs : List Value)
    (kw merged : Kwargs) (advance : Option Rat) (k : String)
    (hrg : resolveGate b name qs kw = some (merged, advance))
    (hkt : k ≠ "time") (hkb : k ≠ "bit") (hkbj : ∀ j : Nat, k ≠ "bit" ++ toString j)
    (hks : (kfind kw k).isSome) :
    kfind merged k = kfind kw k := by
  rw [resolveGate] at hrg
  cases hgs : b.gate_set (name, qs) with
  | none => rw [hgs] at hrg; simp at hrg
  | some p =>
    obtain ⟨cargs, bargs⟩ := p
    rw [hgs] at hrg
    dsimp only at hrg
    by_cases hi : (kfind (kw ++ cargs) "time").isSome
    · rw [if_pos hi] at hrg
      obtain ⟨rfl, rfl⟩ : addBits (kw ++ cargs) qs = merged ∧ none = advance := by
        simpa using hrg
      rw [kfind_addBits _ _ _ hkb hkbj]
      exact kfind_append_left _ _ _ hks
    · rw [if_neg hi] at hrg
      cases hmax : maxTimes b.times qs with
      | none => rw [hmax] at hrg; simp at hrg
      | some base =>
        rw [hmax] at hrg
        dsimp only at hrg
        obtain ⟨rfl, rfl⟩ :
            addBits (("time", Value.num (base + offs bargs)) :: (kw ++ cargs)) qs = merged ∧
            some (base + bargs.gate_time) = advance := by simpa using hrg
        rw [kfind_addBits _ _ _ hkb hkbj, kfind_cons_ne _ _ _ (Ne.symm hkt)]
        exact kfind_append_left _ _ _ hks

/-- Under active logging and successful lookups, a gate call appends exactly
its own log entry (whatever the handler does afterwards, and however the
call ends), and the save flag ends up back at `true`. -/
theorem run_gate_log (n : Nat) (b : Builder) (name : String) (qs : List Value)
    (flag : Value) (kw merged : Kwargs) (advance : Option Rat)
    (tmpl : GateTemplate) (ud : List Value)
    (hrg : resolveGate b name qs kw = some (merged, advance))
    (hgd : b.gate_dic name = some tmpl)
    (hsf : b.save_flag = true)
    (hud : findAll merged tmpl.user_kws = some ud) :
    (run (n + 1) b (.gate name qs flag kw)).1.circuit_list =
      b.circuit_list ++ [mkLogEntry name qs ud flag] ∧
    (run (n + 1) b (.gate name qs flag kw)).1.save_flag = true := by
  rw [run, hrg]
  dsimp only
  rw [hgd]
  dsimp only
  rw [logStage_eq_some b name qs flag merged tmpl ud hsf hud]
  dsimp only
  cases hfn : tmpl.function with
  | prim g =>
    dsimp only
    constructor
    · exact (finishGate_fst _ _ _ _).1
    · rw [(finishGate_fst _ _ _ _).2.1]; exact hsf
  | ctor g =>
    dsimp only
    constructor
    · exact (finishGate_fst _ _ _ _).1
    · rw [(finishGate_fst _ _ _ _).2.1]; exact hsf
  | composite f =>
    dsimp only
    rcases hE : run n
        { b with circuit_list := b.circuit_list ++ [mkLogEntry name qs ud flag],
                 save_flag := false } (.acts (f merged)) with ⟨b3, r⟩
    have hNS := run_noSave n
        { b with circuit_list := b.circuit_list ++ [mkLogEntry name qs ud flag],
                 save_flag := false } (.acts (f merged)) rfl
    rw [hE] at hNS
    dsimp only
    cases r with
    | ok v =>
      dsimp only
      constructor
      · exact ((finishGate_fst _ _ _ _).1).trans hNS.2
      · rw [(finishGate_fst _ _ _ _).2.1]; exact hsf
    | exn => exact ⟨hNS.2, hsf⟩
    | stuck => exact ⟨hNS.2, hsf⟩

/-- The re-entrancy flag always comes back to its pre-call value, on every
exit path of `add_gate` (missing binding, missing gate, failed logging,
handler failure, fuel exhaustion, or success). -/
theorem run_gate_save (fuel : Nat) (b : Builder) (name : String)
    (qs : List Value) (flag : Value) (kw : Kwargs) :
    (run fuel b (.gate name qs flag kw)).1.save_flag = b.save_flag := by
  cases fuel with
  | zero => rw [run]
  | succ n =>
    rw [run]
    cases hrg : resolveGate b name qs kw with
    | none => rfl
    | some r =>
      obtain ⟨merged, advance⟩ := r
      dsimp only
      cases hgd : b.gate_dic name with
      | none => rfl
      | some tmpl =>
        dsimp only
        cases hls : logStage b name qs flag merged tmpl with
        | none => rfl
        | some b1 =>
          dsimp only
          have hfield := (logStage_fields b b1 name qs flag merged tmpl hls).1
          cases hfn : tmpl.function with
          | prim g =>
            dsimp only
            rw [(finishGate_fst _ _ _ _).2.1]; exact hfield
          | ctor g =>
            dsimp only
            rw [(finishGate_fst _ _ _ _).2.1]; exact hfield
          | composite f =>
            dsimp only
            rcases hE : run n { b1 with save_flag := false } (.acts (f merged))
              with ⟨b3, r⟩
            dsimp only
            cases r with
            | ok v =>
              dsimp only
              rw [(finishGate_fst _ _ _ _).2.1]; exact hfield
            | exn => exact hfield
            | stuck => exact hfield

/-- Full shape of a gate call whose composite handler raises: the log
entry made before dispatch survives, the suspension flag is restored from
the saved value, and the exception propagates before any clock update. -/
theorem run_gate_exn (n : Nat) (b b1 b3 : Builder) (name : String)
    (qs : List Value) (flag : Value) (kw merged : Kwargs) (advance : Option Rat)
    (tmpl : GateTemplate) (f : Kwargs → List CompAct)
    (hrg : resolveGate b name qs kw = some (merged, advance))
    (hgd : b.gate_dic name = some tmpl)
    (hls : logStage b name qs flag merged tmpl = some b1)
    (hfn : tmpl.function = .composite f)
    (hE : run n { b1 with save_flag := false } (.acts (f merged)) = (b3, .exn)) :
    run (n + 1) b (.gate name qs flag kw) =
      ({ b3 with save_flag := b1.save_flag }, .exn) := by
  rw [run, hrg]
  dsimp only
  rw [hgd]
  dsimp only
  rw [hls]
  dsimp only
  rw [hfn]
  dsimp only
  rw [hE]

/-- Full shape of a successful, no-explicit-time, primitive-handler gate
call: the firing time `base + offs` is recorded into the dispatched
kwargs, the caller-level entry is logged, and every touched clock is
advanced toward `base + gate_time`. -/
theorem run_gate_normal (n : Nat) (b : Builder) (name : String) (qs : List Value)
    (kw cargs : Kwargs) (bargs : BuilderArgs) (tmpl : GateTemplate) (g : String)
    (base : Rat) (ud : List Value)
    (hgs : b.gate_set (name, qs) = some (cargs, bargs))
    (ht : kfind (kw ++ cargs) "time" = none)
    (hmax : maxTimes b.times qs = some base)
    (hgd : b.gate_dic name = some tmpl)
    (hfn : tmpl.function = .prim g)
    (hsf : b.save_flag = true)
    (hud : findAll (addBits (("time", .num (base + offs bargs)) :: (kw ++ cargs)) qs)
             tmpl.user_kws = some ud) :
    run (n + 1) b (.gate name qs (.bool false) kw) =
      ({ b with
          circuit_list :=
            b.circuit_list ++ [mkLogEntry name qs ud (.bool false)],
          gates := b.gates ++
            [(g, addBits (("time", .num (base + offs bargs)) :: (kw ++ cargs)) qs)],
          times := (advanceClocks b.times (base + bargs.gate_time) qs).1 },
        .ok none) := by
  rw [run, resolveGate_eq_noTime b name qs kw cargs bargs base hgs ht hmax]
  dsimp only
  rw [hgd]
  dsimp only
  rw [logStage_eq_some b name qs (.bool false) _ tmpl ud hsf hud]
  dsimp only
  rw [hfn]
  dsimp only
  rw [finishGate.eq_def]
  have hok := (advanceClocks_spec (base + bargs.gate_time) qs b.times
      (maxTimes_collect_isSome b.times qs base hmax)).1
  simp only [hok]
  rw [returnStage_false]
  simp

/-- Full shape of a successful, explicit-time, primitive-handler gate
call: the caller's time is dispatched untouched and no clock moves. -/
theorem run_gate_timed (n : Nat) (b : Builder) (name : String) (qs : List Value)
    (kw cargs : Kwargs) (bargs : BuilderArgs) (tmpl : GateTemplate) (g : String)
    (tv : Value) (ud : List Value)
    (hgs : b.gate_set (name, qs) = some (cargs, bargs))
    (ht : kfind (kw ++ cargs) "time" = some tv)
    (hgd : b.gate_dic name = some tmpl)
    (hfn : tmpl.function = .prim g)
    (hsf : b.save_flag = true)
    (hud : findAll (addBits (kw ++ cargs) qs) tmpl.user_kws = some ud) :
    run (n + 1) b (.gate name qs (.bool false) kw) =
      ({ b with
          circuit_list :=
            b.circuit_list ++ [mkLogEntry name qs ud (.bool false)],
          gates := b.gates ++ [(g, addBits (kw ++ cargs) qs)] },
        .ok none) := by
  rw [run, resolveGate_eq_time b name qs kw cargs bargs tv hgs ht]
  dsimp only
  rw [hgd]
  dsimp only
  rw [logStage_eq_some b name qs (.bool false) _ tmpl ud hsf hud]
  dsimp only
  rw [hfn]
  dsimp only
  rw [finishGate.eq_def]
  dsimp only
  rw [returnStage_false]

/-! ### Decoding lemmas for the `__lt__` tuple parser -/

theorem decodeTail_plain (m nq : Nat) (desc : List Value)
    (hlen : desc.length = m + nq + 1) :
    decodeTail m nq desc = some (.bool false, none) := by
  rw [decodeTail, if_neg (by omega), if_neg (by omega), if_pos hlen]

theorem decodeTail_time (m nq : Nat) (desc : List Value) (v : Value)
    (hlen : desc.length = m + nq + 2) (hlast : desc.getLast? = some v)
    (hnb : isBoolVal v = false) :
    decodeTail m nq desc = some (.bool false, some v) := by
  rw [decodeTail, if_pos hlen, hlast]
  dsimp only
  rw [hnb]
  rfl

/-- `__lt__` with a successfully decoded string-leading descriptor is the
corresponding `add_gate` call. -/
theorem run_lt (n : Nat) (b : Builder) (desc : List Value) (name : String)
    (tmpl : GateTemplate) (flag : Value) (tOpt : Option Value)
    (hh : desc.head? = some (.str name))
    (hgd : b.gate_dic name = some tmpl)
    (hdt : decodeTail tmpl.user_kws.length tmpl.num_qubits desc = some (flag, tOpt)) :
    run (n + 1) b (.lt desc) =
      run n b (.gate name ((desc.drop 1).take tmpl.num_qubits) flag
        (match tOpt with
         | some t =>
           if pyTruthy t then
             ("time", t) :: tmpl.user_kws.zip (desc.drop (tmpl.num_qubits + 1))
           else tmpl.user_kws.zip (desc.drop (tmpl.num_qubits + 1))
         | none => tmpl.user_kws.zip (desc.drop (tmpl.num_qubits + 1)))) := by
  rw [run, hh]
  dsimp only
  rw [hgd]
  dsimp only
  simp only [hdt]
  cases tOpt <;> rfl

/-! ### Concrete fixtures (the spec's worked example and variants) -/

/-- The spec example's gate `X`: arity 1, no user parameters, primitive
handler, nominal duration 20, no execution offset. -/
def exXT : GateTemplate := ⟨1, [], .prim "rotate_x"⟩

/-- A rotation gate with an `angle` user parameter. -/
def exRXT : GateTemplate := ⟨1, ["angle"], .prim "rotate_x"⟩

/-- A second rotation gate with an `angle` user parameter. -/
def exRYT : GateTemplate := ⟨1, ["angle"], .prim "rotate_y"⟩

/-- Expansion body mimicking `had_from_rot`: two rotation descriptors
carrying the resolved time. -/
def exHExp : Kwargs → List CompAct := fun kw =>
  match kfind kw "bit", kfind kw "time" with
  | some bq, some tv =>
    [.desc [.str "RX", bq, .num (-3), tv], .desc [.str "RY", bq, .num (-2), tv]]
  | _, _ => [.raiseExn]

/-- A composite mimicking `had_from_rot`. -/
def exHT : GateTemplate := ⟨1, [], .composite exHExp⟩

/-- Expansion body that raises, like the `ValueError` branch of
`insert_CZ`. -/
def exFExp : Kwargs → List CompAct := fun _ => [.raiseExn]

/-- A composite whose expansion raises. -/
def exFT : GateTemplate := ⟨1, [], .composite exFExp⟩

/-- The example gate catalogue. -/
def exGateDic : String → Option GateTemplate := fun n =>
  if n = "X" then some exXT
  else if n = "RX" then some exRXT
  else if n = "RY" then some exRYT
  else if n = "H" then some exHT
  else if n = "F" then some exFT
  else none

/-- The example binding table. -/
def exGateSet : String × List Value → Option (Kwargs × BuilderArgs) := fun k =>
  if k = ("X", [.str "a"]) then some ([], ⟨20, none⟩)
  else if k = ("RX", [.str "a"]) then some ([], ⟨20, none⟩)
  else if k = ("RY", [.str "a"]) then some ([], ⟨20, none⟩)
  else if k = ("RX", [.str "b"]) then some ([], ⟨30, none⟩)
  else if k = ("H", [.str "a"]) then some ([], ⟨40, none⟩)
  else if k = ("F", [.str "a"]) then some ([], ⟨10, none⟩)
  else none

/-- A second binding table with different fixed parameter overrides and
different scheduling data, for replay-independence statements. -/
def exGateSet2 : String × List Value → Option (Kwargs × BuilderArgs) := fun k =>
  if k = ("RX", [.str "a"]) then
    some ([("angle", .num 99), ("dephase_var", .num 1)], ⟨50, some 2⟩)
  else none

/-- The example builder over qubits `a` and `b`, both quantum. -/
def exB : Builder := builderInit [("a", false), ("b", false)] exGateDic exGateSet

/-- Helper: `"time"` never collides with the reserved bit keys. -/
theorem time_not_bitkey : ("time" : String) ≠ "bit" ∧
    ∀ j : Nat, ("time" : String) ≠ "bit" ++ toString j :=
  ⟨by decide, fun j => Ne.symm (bit_append_ne_time (toString j))⟩

/-- C2: for every add_gate call without an explicit time, the gate fires at
the maximum of its qubits' clocks plus the binding's execution offset if
present, else plus half the nominal duration; concretely, on qubit `a`
with gate `X` of duration 20 and no exec offset, two successive calls
fire at 10 and 30 and leave clock(a) at 20 then 40. -/
theorem firing_time_rule_and_example :
    (∀ (n : Nat) (b : Builder) (name : String) (qs : List Value)
       (kw cargs : Kwargs) (bargs : BuilderArgs) (tmpl : GateTemplate)
       (g : String) (base : Rat) (ud : List Value),
       b.gate_set (name, qs) = some (cargs, bargs) →
       kfind (kw ++ cargs) "time" = none →
       maxTimes b.times qs = some base →
       b.gate_dic name = some tmpl →
       tmpl.function = .prim g →
       b.save_flag = true →
       findAll (addBits (("time", .num (base + offs bargs)) :: (kw ++ cargs)) qs)
           tmpl.user_kws = some ud →
       (run (n + 1) b (.gate name qs (.bool false) kw)).1.gates =
         b.gates ++
           [(g, addBits (("time", .num (base + offs bargs)) :: (kw ++ cargs)) qs)] ∧
       kfind (addBits (("time", .num (base + offs bargs)) :: (kw ++ cargs)) qs)
           "time" = some (.num (base + offs bargs))) ∧
    ((run 2 exB (.gate "X" [.str "a"] (.bool false) [])).1.gates =
       [("rotate_x", [("bit", .str "a"), ("time", .num 10)])] ∧
     (run 2 exB (.gate "X" [.str "a"] (.bool false) [])).1.times "a" = some 20 ∧
     (run 2 (run 2 exB (.gate "X" [.str "a"] (.bool false) [])).1
        (.gate "X" [.str "a"] (.bool false) [])).1.gates =
       [("rotate_x", [("bit", .str "a"), ("time", .num 10)]),
        ("rotate_x", [("bit", .str "a"), ("time", .num 30)])] ∧
     (run 2 (run 2 exB (.gate "X" [.str "a"] (.bool false) [])).1
        (.gate "X" [.str "a"] (.bool false) [])).1.times "a" = some 40) := by
  constructor
  · intro n b name qs kw cargs bargs tmpl g base ud hgs ht hmax hgd hfn hsf hud
    constructor
    · rw [run_gate_normal n b name qs kw cargs bargs tmpl g base ud
        hgs ht hmax hgd hfn hsf hud]
    · rw [kfind_addBits _ _ _ time_not_bitkey.1 time_not_bitkey.2]
      simp [kfind]
  · exact ⟨by with_unfolding_all decide, by with_unfolding_all decide,
      by with_unfolding_all decide, by with_unfolding_all decide⟩

/-- C2 witness: the general firing rule instantiated on the example
system's first `X` call. -/
theorem firing_time_rule_witness :
    (run 2 exB (.gate "X" [.str "a"] (.bool false) [])).1.gates =
      exB.gates ++
        [("rotate_x", addBits (("time", .num (0 + offs ⟨20, none⟩)) :: ([] ++ []))
            [.str "a"])] ∧
    kfind (addBits (("time", .num (0 + offs ⟨20, none⟩)) :: ([] ++ [])) [.str "a"])
        "time" = some (.num (0 + offs ⟨20, none⟩)) :=
  firing_time_rule_and_example.1 1 exB "X" [.str "a"] [] [] ⟨20, none⟩ exXT
    "rotate_x" 0 []
    (by with_unfolding_all rfl) (by with_unfolding_all rfl)
    (by with_unfolding_all decide) (by with_unfolding_all rfl)
    (by with_unfolding_all rfl) (by with_unfolding_all rfl)
    (by with_unfolding_all rfl)

/-- C1 counterexample: with duration 20, no exec offset and clock(a) = 0,
the gate fires at 10 (recorded in the dispatched kwargs) but the clock of
`a` is advanced to 20, not to max(0, firing_time + duration) = 30 as the
claim demands. -/
theorem clock_rule_counterexample :
    (run 2 exB (.gate "X" [.str "a"] (.bool false) [])).1.gates =
      [("rotate_x", [("bit", .str "a"), ("time", .num 10)])] ∧
    (run 2 exB (.gate "X" [.str "a"] (.bool false) [])).1.times "a" = some 20 ∧
    (run 2 exB (.gate "X" [.str "a"] (.bool false) [])).1.times "a" ≠
      some (max 0 (10 + 20)) := by
  refine ⟨by with_unfolding_all decide, by with_unfolding_all decide, ?_⟩
  with_unfolding_all decide

/-- C1 (amended): after a no-explicit-time call, each touched qubit's
clock becomes max(its pre-call clock, base + nominal duration), where
`base` is the maximum of the call qubits' pre-call clocks — i.e. the
firing time minus the scheduling offset, not the firing time itself. -/
theorem clock_advance_amended (n : Nat) (b : Builder) (name : String)
    (qs : List Value) (kw cargs : Kwargs) (bargs : BuilderArgs)
    (tmpl : GateTemplate) (g : String) (base : Rat) (ud : List Value)
    (hgs : b.gate_set (name, qs) = some (cargs, bargs))
    (ht : kfind (kw ++ cargs) "time" = none)
    (hmax : maxTimes b.times qs = some base)
    (hgd : b.gate_dic name = some tmpl)
    (hfn : tmpl.function = .prim g)
    (hsf : b.save_flag = true)
    (hud : findAll (addBits (("time", .num (base + offs bargs)) :: (kw ++ cargs)) qs)
             tmpl.user_kws = some ud) :
    ∀ (s : String) (t : Rat), Value.str s ∈ qs → b.times s = some t →
      (run (n + 1) b (.gate name qs (.bool false) kw)).1.times s =
        some (max t (base + bargs.gate_time)) := by
  intro s t hmem hts
  rw [run_gate_normal n b name qs kw cargs bargs tmpl g base ud
    hgs ht hmax hgd hfn hsf hud]
  have hpt := (advanceClocks_spec (base + bargs.gate_time) qs b.times
      (maxTimes_collect_isSome b.times qs base hmax)).2 s
  show (advanceClocks b.times (base + bargs.gate_time) qs).1 s = _
  rw [hpt, if_pos hmem, hts]
  simp [rmax_eq_max]

/-- C1 witness: the amended clock rule evaluated on the example system's
first `X` call, giving clock(a) = max(0, 0 + 20) = 20. -/
theorem clock_advance_amended_witness :
    (run 2 exB (.gate "X" [.str "a"] (.bool false) [])).1.times "a" =
      some (max 0 (0 + (⟨20, none⟩ : BuilderArgs).gate_time)) :=
  clock_advance_amended 1 exB "X" [.str "a"] [] [] ⟨20, none⟩ exXT "rotate_x" 0 []
    (by with_unfolding_all rfl) (by with_unfolding_all rfl)
    (by with_unfolding_all decide) (by with_unfolding_all rfl)
    (by with_unfolding_all rfl) (by with_unfolding_all rfl)
    (by with_unfolding_all rfl)
    "a" 0 (by with_unfolding_all decide) (by with_unfolding_all rfl)

/-- C4 counterexample: the descriptor `('X', 'a', 0)` carries the explicit
time 0, yet the call schedules normally (fires at 10) and advances
clock(a) to 20 — the `if time:` test treats a zero time as no override. -/
theorem explicit_time_zero_counterexample :
    (run 3 exB (.lt [.str "X", .str "a", .num 0])).1.times "a" = some 20 ∧
    (run 3 exB (.lt [.str "X", .str "a", .num 0])).1.times "a" ≠ exB.times "a" ∧
    (run 3 exB (.lt [.str "X", .str "a", .num 0])).1.gates =
      [("rotate_x", [("bit", .str "a"), ("time", .num 10)])] := by
  refine ⟨by with_unfolding_all decide, ?_, by with_unfolding_all decide⟩
  with_unfolding_all decide

/-- C4 (amended): a length `k + m + 2` descriptor whose non-boolean
trailing field is a nonzero number t is an explicit time override — the
gate is dispatched with time t and no clock is advanced; a trailing 0
falls through to normal scheduling (see the counterexample). -/
theorem explicit_time_override_amended (n : Nat) (b : Builder) (name : String)
    (qs params : List Value) (t : Rat) (cargs : Kwargs) (bargs : BuilderArgs)
    (tmpl : GateTemplate) (g : String) (ud : List Value)
    (ht0 : t ≠ 0)
    (hgd : b.gate_dic name = some tmpl)
    (hq : qs.length = tmpl.num_qubits)
    (hp : params.length = tmpl.user_kws.length)
    (hgs : b.gate_set (name, qs) = some (cargs, bargs))
    (hfn : tmpl.function = .prim g)
    (hsf : b.save_flag = true)
    (hud : findAll (addBits (("time", .num t) :: (tmpl.user_kws.zip params ++ cargs)) qs)
             tmpl.user_kws = some ud) :
    run (n + 2) b (.lt (Value.str name :: qs ++ params ++ [.num t])) =
      ({ b with
          circuit_list := b.circuit_list ++ [mkLogEntry name qs ud (.bool false)],
          gates := b.gates ++
            [(g, addBits (("time", .num t) :: (tmpl.user_kws.zip params ++ cargs)) qs)] },
        .ok none) ∧
    kfind (addBits (("time", .num t) :: (tmpl.user_kws.zip params ++ cargs)) qs)
        "time" = some (.num t) ∧
    (run (n + 2) b (.lt (Value.str name :: qs ++ params ++ [.num t]))).1.times =
      b.times := by
  have hdesc : Value.str name :: qs ++ params ++ [Value.num t] =
      (Value.str name :: (qs ++ params)) ++ [Value.num t] := by simp
  have hlen : (Value.str name :: qs ++ params ++ [Value.num t]).length =
      tmpl.user_kws.length + tmpl.num_qubits + 2 := by
    simp [← hq, ← hp]
    omega
  have hlast : (Value.str name :: qs ++ params ++ [Value.num t]).getLast? =
      some (Value.num t) := by
    rw [hdesc, List.getLast?_concat]
  have hdt := decodeTail_time tmpl.user_kws.length tmpl.num_qubits
      (Value.str name :: qs ++ params ++ [Value.num t]) (Value.num t)
      hlen hlast rfl
  have hdrop1 : (Value.str name :: qs ++ params ++ [Value.num t]).drop 1 =
      qs ++ (params ++ [Value.num t]) := by simp
  have htake : ((Value.str name :: qs ++ params ++ [Value.num t]).drop 1).take
      tmpl.num_qubits = qs := by
    rw [hdrop1, ← hq, take_len_append]
  have hdropn : (Value.str name :: qs ++ params ++ [Value.num t]).drop
      (tmpl.num_qubits + 1) = params ++ [Value.num t] := by
    have : (Value.str name :: qs ++ params ++ [Value.num t]).drop
        (tmpl.num_qubits + 1) =
        (qs ++ (params ++ [Value.num t])).drop tmpl.num_qubits := by
      rw [← hdrop1, List.drop_drop]
      congr 1
      omega
    rw [this, ← hq, drop_len_append]
  have hzip : tmpl.user_kws.zip ((Value.str name :: qs ++ params ++
      [Value.num t]).drop (tmpl.num_qubits + 1)) = tmpl.user_kws.zip params := by
    rw [hdropn, zip_append_of_len _ _ _ hp]
  have htruthy : pyTruthy (Value.num t) = true := by simp [pyTruthy, ht0]
  have hltrw := run_lt (n + 1) b (Value.str name :: qs ++ params ++ [Value.num t])
      name tmpl (.bool false) (some (.num t)) rfl hgd hdt
  rw [htake, hzip] at hltrw
  simp only [htruthy, if_pos] at hltrw
  have htkw : kfind ((("time", Value.num t) :: tmpl.user_kws.zip params) ++ cargs)
      "time" = some (Value.num t) := by simp [kfind]
  have hgate := run_gate_timed n b name qs
      (("time", Value.num t) :: tmpl.user_kws.zip params) cargs bargs tmpl g
      (Value.num t) ud hgs htkw hgd hfn hsf
      (by rw [List.cons_append]; exact hud)
  rw [List.cons_append] at hgate
  refine ⟨?_, ?_, ?_⟩
  · rw [hltrw, hgate]
  · rw [kfind_addBits _ _ _ time_not_bitkey.1 time_not_bitkey.2]
    simp [kfind]
  · rw [hltrw, hgate]

/-- C4 witness: the amended override rule at t = 5 on the example system —
the gate fires at exactly 5 and clock(a) stays untouched. -/
theorem explicit_time_override_witness :
    run 3 exB (.lt (Value.str "X" :: [Value.str "a"] ++ [] ++ [.num 5])) =
      ({ exB with
          circuit_list := exB.circuit_list ++ [mkLogEntry "X" [.str "a"] [] (.bool false)],
          gates := exB.gates ++
            [("rotate_x", addBits (("time", .num 5) :: (exXT.user_kws.zip [] ++ []))
                [.str "a"])] },
        .ok none) ∧
    kfind (addBits (("time", .num 5) :: (exXT.user_kws.zip [] ++ [])) [.str "a"])
        "time" = some (.num 5) ∧
    (run 3 exB (.lt (Value.str "X" :: [Value.str "a"] ++ [] ++ [.num 5]))).1.times =
      exB.times :=
  explicit_time_override_amended 1 exB "X" [.str "a"] [] 5 [] ⟨20, none⟩ exXT
    "rotate_x" []
    (by with_unfolding_all decide) (by with_unfolding_all rfl)
    (by with_unfolding_all rfl) (by with_unfolding_all rfl)
    (by with_unfolding_all rfl) (by with_unfolding_all rfl)
    (by with_unfolding_all rfl) (by with_unfolding_all rfl)

/-- C5: the descriptor form with both a time and a return flag appended is
in fact rejected by the parser: its assertions compare the trailing
elements against the type objects `bool` and `float`/`int` with `==`
rather than checking their types, so `('X', 'a', 5.0, True)` fails the
first assertion, raises, and leaves the builder untouched. -/
theorem time_and_flag_descriptor_rejected :
    decodeTail 0 1 [.str "X", .str "a", .num 5, .bool true] = none ∧
    run 3 exB (.lt [.str "X", .str "a", .num 5, .bool true]) = (exB, .exn) := by
  exact ⟨by with_unfolding_all decide, by with_unfolding_all rfl⟩

/-- C6: a simultaneous group first sets each referenced qubit's clock to
the common value M = max of their pre-group clocks (the collected list l),
and only then dispatches each descriptor from that state. -/
theorem simultaneous_common_start (n : Nat) (b : Builder)
    (group : List (List Value)) (qs : List Value) (l : List Rat) (M : Rat)
    (hgq : groupQubits b group = some qs)
    (hct : collectTimes b.times qs = some l)
    (hM : listMax l = some M) :
    run (n + 1) b (.simult group) =
      run n { b with times := setClocks b.times M qs } (.acts (group.map .desc)) ∧
    (∀ s : String, Value.str s ∈ qs → setClocks b.times M qs s = some M) ∧
    M ∈ l ∧ (∀ t ∈ l, t ≤ M) := by
  refine ⟨?_, fun s hs => ?_, (listMax_spec l M hM).1, (listMax_spec l M hM).2⟩
  · rw [run, hgq]
    dsimp only
    rw [hct]
    dsimp only
    rw [hM]
  · rw [setClocks_spec M qs b.times s, if_pos hs]

/-- C6 witness: after advancing clock(a) to 20 while clock(b) is still 0,
a simultaneous RX group over a and b sets both clocks to 20 before
dispatching. -/
theorem simultaneous_common_start_witness :
    (run 10 (run 2 exB (.gate "RX" [.str "a"] (.bool false) [("angle", .num 1)])).1
        (.simult [[.str "RX", .str "a", .num 2], [.str "RX", .str "b", .num 3]]) =
      run 9 { (run 2 exB (.gate "RX" [.str "a"] (.bool false) [("angle", .num 1)])).1 with
          times := setClocks
            (run 2 exB (.gate "RX" [.str "a"] (.bool false) [("angle", .num 1)])).1.times
            20 [.str "a", .str "b"] }
        (.acts ([[.str "RX", .str "a", .num 2], [.str "RX", .str "b", .num 3]].map .desc))) ∧
    setClocks
      (run 2 exB (.gate "RX" [.str "a"] (.bool false) [("angle", .num 1)])).1.times
      20 [.str "a", .str "b"] "a" = some 20 ∧
    setClocks
      (run 2 exB (.gate "RX" [.str "a"] (.bool false) [("angle", .num 1)])).1.times
      20 [.str "a", .str "b"] "b" = some 20 ∧
    (20 : Rat) ∈ [(20 : Rat), 0] ∧ (0 : Rat) ≤ 20 := by
  have h := simultaneous_common_start 9
    (run 2 exB (.gate "RX" [.str "a"] (.bool false) [("angle", .num 1)])).1
    [[.str "RX", .str "a", .num 2], [.str "RX", .str "b", .num 3]]
    [.str "a", .str "b"] [20, 0] 20
    (by with_unfolding_all decide) (by with_unfolding_all decide)
    (by with_unfolding_all decide)
  exact ⟨h.1, h.2.1 "a" (by decide), h.2.1 "b" (by decide), h.2.2.1,
    h.2.2.2 0 (by decide)⟩

/-- C3: a top-level gate call whose handler is a composite expansion
routine appends exactly one entry to the Circuit Log — whatever descriptor
calls the expansion makes recursively and however it ends — so the log
grows by exactly one per top-level call. -/
theorem composite_adds_one_log_entry (n : Nat) (b : Builder) (name : String)
    (qs : List Value) (flag : Value) (kw merged : Kwargs) (advance : Option Rat)
    (tmpl : GateTemplate) (f : Kwargs → List CompAct) (ud : List Value)
    (hrg : resolveGate b name qs kw = some (merged, advance))
    (hgd : b.gate_dic name = some tmpl)
    (_hfn : tmpl.function = .composite f)
    (hsf : b.save_flag = true)
    (hud : findAll merged tmpl.user_kws = some ud) :
    (run (n + 1) b (.gate name qs flag kw)).1.circuit_list =
      b.circuit_list ++ [mkLogEntry name qs ud flag] ∧
    (run (n + 1) b (.gate name qs flag kw)).1.circuit_list.length =
      b.circuit_list.length + 1 := by
  have h := run_gate_log n b name qs flag kw merged advance tmpl ud hrg hgd hsf hud
  exact ⟨h.1, by rw [h.1]; simp⟩

/-- C3 witness: the composite `H` (expanding into two rotations) adds one
log entry while the engine receives two gates. -/
theorem composite_adds_one_log_entry_witness :
    (run 9 exB (.gate "H" [.str "a"] (.bool false) [])).1.circuit_list =
      exB.circuit_list ++ [mkLogEntry "H" [.str "a"] [] (.bool false)] ∧
    (run 9 exB (.gate "H" [.str "a"] (.bool false) [])).1.circuit_list.length =
      exB.circuit_list.length + 1 :=
  composite_adds_one_log_entry 8 exB "H" [.str "a"] (.bool false) []
    [("bit", .str "a"), ("time", .num 20)] (some 40) exHT exHExp []
    (by with_unfolding_all rfl) (by with_unfolding_all rfl)
    (by with_unfolding_all rfl) (by with_unfolding_all rfl)
    (by with_unfolding_all rfl)

/-- C7: the log entry appended by a gate call stores, for each of the
template's user parameters, the value found in the caller's own kwargs —
whatever fixed overrides the binding table contributes — so the entry is
the caller-level call, replayable against any other binding table. -/
theorem log_entry_records_caller_values (n : Nat) (b : Builder) (name : String)
    (qs : List Value) (flag : Value) (kw merged : Kwargs) (advance : Option Rat)
    (tmpl : GateTemplate) (ud : List Value)
    (hrg : resolveGate b name qs kw = some (merged, advance))
    (hgd : b.gate_dic name = some tmpl)
    (hsf : b.save_flag = true)
    (hcaller : findAll kw tmpl.user_kws = some ud)
    (hfree : ∀ k ∈ tmpl.user_kws,
      k ≠ "time" ∧ k ≠ "bit" ∧ ∀ j : Nat, k ≠ "bit" ++ toString j) :
    (run (n + 1) b (.gate name qs flag kw)).1.circuit_list =
      b.circuit_list ++ [mkLogEntry name qs ud flag] := by
  have hmerged : findAll merged tmpl.user_kws = some ud := by
    rw [findAll_congr kw merged tmpl.user_kws (fun k hk =>
      resolveGate_find b name qs kw merged advance k hrg (hfree k hk).1
        (hfree k hk).2.1 (hfree k hk).2.2
        (findAll_isSome kw tmpl.user_kws ud hcaller k hk))]
    exact hcaller
  exact (run_gate_log n b name qs flag kw merged advance tmpl ud hrg hgd hsf
    hmerged).1

/-- C7 witness: an RX call with caller angle 7 against a binding table
whose fixed overrides set angle 99 still logs angle 7. -/
theorem log_entry_records_caller_values_witness :
    (run 2 (builderInit [("a", false)] exGateDic exGateSet2)
        (.gate "RX" [.str "a"] (.bool false) [("angle", .num 7)])).1.circuit_list =
      (builderInit [("a", false)] exGateDic exGateSet2).circuit_list ++
        [mkLogEntry "RX" [.str "a"] [.num 7] (.bool false)] :=
  log_entry_records_caller_values 1 (builderInit [("a", false)] exGateDic exGateSet2)
    "RX" [.str "a"] (.bool false) [("angle", .num 7)]
    [("bit", .str "a"), ("time", .num 2), ("angle", .num 7), ("angle", .num 99),
      ("dephase_var", .num 1)]
    (some 50) exRXT [.num 7]
    (by with_unfolding_all decide) (by with_unfolding_all rfl)
    (by with_unfolding_all rfl) (by with_unfolding_all rfl)
    (by
      intro k hk
      have : k = "angle" := by
        have := List.mem_singleton.mp hk
        exact this
      subst this
      exact ⟨by decide, by decide, fun j => Ne.symm (bit_append_ne_angle (toString j))⟩)

/-- C9: when a composite handler raises, the exception propagates out of
the gate call, the logging flag is restored to its pre-call value first,
and a later gate call from the resulting state still appends its own log
entry. -/
theorem save_flag_restored_on_error (n : Nat) (b b3 : Builder) (name : String)
    (qs : List Value) (flag : Value) (kw merged : Kwargs) (advance : Option Rat)
    (tmpl : GateTemplate) (f : Kwargs → List CompAct) (ud : List Value)
    (hrg : resolveGate b name qs kw = some (merged, advance))
    (hgd : b.gate_dic name = some tmpl)
    (hfn : tmpl.function = .composite f)
    (hsf : b.save_flag = true)
    (hud : findAll merged tmpl.user_kws = some ud)
    (hE : run n { b with
                  circuit_list := b.circuit_list ++ [mkLogEntry name qs ud flag],
                  save_flag := false } (.acts (f merged)) = (b3, .exn)) :
    (run (n + 1) b (.gate name qs flag kw)).2 = .exn ∧
    (run (n + 1) b (.gate name qs flag kw)).1.save_flag = b.save_flag ∧
    ∀ (m : Nat) (name₂ : String) (qs₂ : List Value) (flag₂ : Value)
      (kw₂ merged₂ : Kwargs) (advance₂ : Option Rat) (tmpl₂ : GateTemplate)
      (ud₂ : List Value),
      resolveGate (run (n + 1) b (.gate name qs flag kw)).1 name₂ qs₂ kw₂ =
        some (merged₂, advance₂) →
      (run (n + 1) b (.gate name qs flag kw)).1.gate_dic name₂ = some tmpl₂ →
      findAll merged₂ tmpl₂.user_kws = some ud₂ →
      (run (m + 1) (run (n + 1) b (.gate name qs flag kw)).1
          (.gate name₂ qs₂ flag₂ kw₂)).1.circuit_list =
        (run (n + 1) b (.gate name qs flag kw)).1.circuit_list ++
          [mkLogEntry name₂ qs₂ ud₂ flag₂] := by
  have hls := logStage_eq_some b name qs flag merged tmpl ud hsf hud
  have main := run_gate_exn n b
      { b with circuit_list := b.circuit_list ++ [mkLogEntry name qs ud flag] }
      b3 name qs flag kw merged advance tmpl f hrg hgd hls hfn hE
  refine ⟨by rw [main], by rw [main], ?_⟩
  intro m name₂ qs₂ flag₂ kw₂ merged₂ advance₂ tmpl₂ ud₂ hrg₂ hgd₂ hud₂
  rw [main] at hrg₂ hgd₂ ⊢
  exact (run_gate_log m _ name₂ qs₂ flag₂ kw₂ merged₂ advance₂ tmpl₂ ud₂
    hrg₂ hgd₂ hsf hud₂).1

/-- C9 witness: a composite gate `F` whose expansion raises, followed by a
plain `X` call that still logs. -/
theorem save_flag_restored_on_error_witness :
    (run 2 exB (.gate "F" [.str "a"] (.bool false) [])).2 = .exn ∧
    (run 2 exB (.gate "F" [.str "a"] (.bool false) [])).1.save_flag =
      exB.save_flag ∧
    (run 2 (run 2 exB (.gate "F" [.str "a"] (.bool false) [])).1
        (.gate "X" [.str "a"] (.bool false) [])).1.circuit_list =
      (run 2 exB (.gate "F" [.str "a"] (.bool false) [])).1.circuit_list ++
        [mkLogEntry "X" [.str "a"] [] (.bool false)] := by
  have h := save_flag_restored_on_error 1 exB
    { exB with
      circuit_list := exB.circuit_list ++ [mkLogEntry "F" [.str "a"] [] (.bool false)],
      save_flag := false }
    "F" [.str "a"] (.bool false) []
    [("bit", .str "a"), ("time", .num 5)] (some 10) exFT exFExp []
    (by with_unfolding_all rfl) (by with_unfolding_all rfl)
    (by with_unfolding_all rfl) (by with_unfolding_all rfl)
    (by with_unfolding_all rfl) (by with_unfolding_all rfl)
  exact ⟨h.1, h.2.1, h.2.2 1 "X" [.str "a"] (.bool false) []
    [("bit", .str "a"), ("time", .num 10)] (some 20) exXT []
    (by with_unfolding_all decide) (by with_unfolding_all rfl)
    (by with_unfolding_all rfl)⟩

/-- C10: when a composite handler raises, the log entry appended before
dispatch is not rolled back — the failed call leaves the Circuit Log one
entry longer while the exception propagates. -/
theorem failed_dispatch_keeps_log_entry (n : Nat) (b b3 : Builder) (name : String)
    (qs : List Value) (flag : Value) (kw merged : Kwargs) (advance : Option Rat)
    (tmpl : GateTemplate) (f : Kwargs → List CompAct) (ud : List Value)
    (hrg : resolveGate b name qs kw = some (merged, advance))
    (hgd : b.gate_dic name = some tmpl)
    (hfn : tmpl.function = .composite f)
    (hsf : b.save_flag = true)
    (hud : findAll merged tmpl.user_kws = some ud)
    (hE : run n { b with
                  circuit_list := b.circuit_list ++ [mkLogEntry name qs ud flag],
                  save_flag := false } (.acts (f merged)) = (b3, .exn)) :
    (run (n + 1) b (.gate name qs flag kw)).1.circuit_list =
      b.circuit_list ++ [mkLogEntry name qs ud flag] ∧
    (run (n + 1) b (.gate name qs flag kw)).1.circuit_list.length =
      b.circuit_list.length + 1 ∧
    (run (n + 1) b (.gate name qs flag kw)).2 = .exn := by
  have hls := logStage_eq_some b name qs flag merged tmpl ud hsf hud
  have main := run_gate_exn n b
      { b with circuit_list := b.circuit_list ++ [mkLogEntry name qs ud flag] }
      b3 name qs flag kw merged advance tmpl f hrg hgd hls hfn hE
  have hNS := run_noSave n
      { b with circuit_list := b.circuit_list ++ [mkLogEntry name qs ud flag],
               save_flag := false } (.acts (f merged)) rfl
  rw [hE] at hNS
  refine ⟨?_, ?_, by rw [main]⟩
  · rw [main]
    exact hNS.2
  · rw [main]
    show b3.circuit_list.length = b.circuit_list.length + 1
    rw [hNS.2]
    simp
  -- the log retention holds however the expansion fails

/-- C10 witness: the failing composite `F` leaves its log entry behind. -/
theorem failed_dispatch_keeps_log_entry_witness :
    (run 2 exB (.gate "F" [.str "a"] (.bool false) [])).1.circuit_list =
      exB.circuit_list ++ [mkLogEntry "F" [.str "a"] [] (.bool false)] ∧
    (run 2 exB (.gate "F" [.str "a"] (.bool false) [])).1.circuit_list.length =
      exB.circuit_list.length + 1 ∧
    (run 2 exB (.gate "F" [.str "a"] (.bool false) [])).2 = .exn :=
  failed_dispatch_keeps_log_entry 1 exB
    { exB with
      circuit_list := exB.circuit_list ++ [mkLogEntry "F" [.str "a"] [] (.bool false)],
      save_flag := false }
    "F" [.str "a"] (.bool false) []
    [("bit", .str "a"), ("time", .num 5)] (some 10) exFT exFExp []
    (by with_unfolding_all rfl) (by with_unfolding_all rfl)
    (by with_unfolding_all rfl) (by with_unfolding_all rfl)
    (by with_unfolding_all rfl) (by with_unfolding_all rfl)

/-- The example builder whose log already holds one angle-bearing gate,
`('RX', 'a', 7)`, as left behind by a previous `add_gate` call. -/
def exRevB : Builder :=
  { builderInit [("a", false)] exGateDic exGateSet with
    circuit_list := [[.str "RX", .str "a", .num 7]] }

/-- C8: reversing a circuit whose log holds exactly one gate with an
`angle` user parameter of caller value θ produces a builder whose log
holds the corresponding entry with the angle replaced by -θ and every
other field unchanged, and the replay succeeds. -/
theorem reverse_negates_angle (n : Nat) (b : Builder) (name : String)
    (qs params : List Value) (θ : Rat) (i : Nat) (g : String)
    (cargs : Kwargs) (bargs : BuilderArgs) (tmpl : GateTemplate) (base : Rat)
    (hlog : b.circuit_list = [Value.str name :: (qs ++ params)])
    (hgd : b.gate_dic name = some tmpl)
    (hq : qs.length = tmpl.num_qubits)
    (hp : params.length = tmpl.user_kws.length)
    (hnd : tmpl.user_kws.Nodup)
    (hfree : ∀ k ∈ tmpl.user_kws,
      k ≠ "time" ∧ k ≠ "bit" ∧ ∀ j : Nat, k ≠ "bit" ++ toString j)
    (hmem : "angle" ∈ tmpl.user_kws)
    (hidx : tmpl.user_kws.indexOf "angle" = i)
    (hangle : params.get? i = some (.num θ))
    (hgs : b.gate_set (name, qs) = some (cargs, bargs))
    (hctime : kfind cargs "time" = none)
    (hfn : tmpl.function = .prim g)
    (hmax : maxTimes (initTimes b.qubit_dic) qs = some base) :
    (make_reverse_circuit (n + 3) b).1.circuit_list =
      [Value.str name :: (qs ++ params.set i (.num (-θ)))] ∧
    (make_reverse_circuit (n + 3) b).2 = .ok none := by
  set params₂ := params.set i (Value.num (-θ)) with hparams₂
  have hlen₂ : params₂.length = tmpl.user_kws.length := by
    rw [hparams₂, List.length_set]; exact hp
  -- the reversal transformation negates exactly the angle position
  have hstep : reverseStep b (Value.str name :: (qs ++ params)) =
      some (Value.str name :: (qs ++ params₂)) := by
    rw [reverseStep,
      show (Value.str name :: (qs ++ params)).head? = some (Value.str name)
        from rfl]
    dsimp only
    rw [hgd]
    dsimp only
    rw [if_pos hmem, hidx]
    have hget : (Value.str name :: (qs ++ params)).get? (tmpl.num_qubits + 1 + i) =
        some (Value.num θ) := by
      rw [show tmpl.num_qubits + 1 + i = (tmpl.num_qubits + i) + 1 by omega,
        List.get?_cons_succ, ← hq, get?_append_len]
      exact hangle
    rw [hget]
    have hset : (Value.str name :: (qs ++ params)).set (tmpl.num_qubits + 1 + i)
        (Value.num (-θ)) = Value.str name :: (qs ++ params₂) := by
      rw [show tmpl.num_qubits + 1 + i = (tmpl.num_qubits + i) + 1 by omega,
        List.set_cons_succ, ← hq, set_append_len]
    simp only [show pyMulNeg1 (Value.num θ) = some (Value.num (-θ)) from rfl,
      Option.map_some']
    rw [hset]
  have hmap : mapOpt (reverseStep b) b.circuit_list.reverse =
      some [Value.str name :: (qs ++ params₂)] := by
    rw [hlog, List.reverse_singleton, mapOpt, hstep]
    rfl
  -- the fresh builder over the same configuration
  have hnbsf : (builderInit b.qubit_dic b.gate_dic b.gate_set).save_flag = true := rfl
  -- decoding the transformed entry during replay
  have hdt : decodeTail tmpl.user_kws.length tmpl.num_qubits
      (Value.str name :: (qs ++ params₂)) = some (.bool false, none) := by
    apply decodeTail_plain
    simp only [List.length_cons, List.length_append, ← hq, ← hlen₂]
    omega
  have hltrw := run_lt (n + 1) (builderInit b.qubit_dic b.gate_dic b.gate_set)
      (Value.str name :: (qs ++ params₂)) name tmpl (.bool false) none
      rfl hgd hdt
  have htake : ((Value.str name :: (qs ++ params₂)).drop 1).take tmpl.num_qubits
      = qs := by
    rw [show (Value.str name :: (qs ++ params₂)).drop 1 = qs ++ params₂ from rfl,
      ← hq, take_len_append]
  have hdropn : (Value.str name :: (qs ++ params₂)).drop (tmpl.num_qubits + 1)
      = params₂ := by
    rw [List.drop_succ_cons, ← hq, drop_len_append]
  rw [htake, hdropn] at hltrw
  -- the merged kwargs carry no caller time, so the gate schedules normally
  have htimenotin : "time" ∉ tmpl.user_kws := fun hmem2 => (hfree _ hmem2).1 rfl
  have ht : kfind (tmpl.user_kws.zip params₂ ++ cargs) "time" = none := by
    rw [kfind_append_right _ _ _ (kfind_zip_not_mem _ _ _ htimenotin)]
    exact hctime
  -- the replay log entry resolves back to exactly the negated parameters
  have hud : findAll
      (addBits (("time", .num (base + offs bargs)) ::
        (tmpl.user_kws.zip params₂ ++ cargs)) qs) tmpl.user_kws = some params₂ := by
    rw [findAll_congr (tmpl.user_kws.zip params₂) _ tmpl.user_kws (fun k hk => by
      rw [kfind_addBits _ _ _ (hfree k hk).2.1 (hfree k hk).2.2,
        kfind_cons_ne _ _ _ (Ne.symm (hfree k hk).1),
        kfind_append_left _ _ _ (kfind_zip_isSome _ _ _ hk hlen₂)])]
    exact findAll_zip_self tmpl.user_kws params₂ hnd hlen₂
  have hgate := run_gate_normal n (builderInit b.qubit_dic b.gate_dic b.gate_set)
      name qs (tmpl.user_kws.zip params₂) cargs bargs tmpl g base params₂
      hgs ht hmax hgd hfn hnbsf hud
  rw [make_reverse_circuit.eq_def, hmap]
  dsimp only
  rw [List.map_cons, List.map_nil, run, hltrw, hgate]
  dsimp only
  rw [run]
  dsimp only
  constructor
  · rw [mkLogEntry_false]
    rfl
  · rfl

/-- C8 witness: reversing a circuit whose log is `[('RX','a',7)]` yields
the log `[('RX','a',-7)]`. -/
theorem reverse_negates_angle_witness :
    (make_reverse_circuit 3 exRevB).1.circuit_list =
      [Value.str "RX" :: [Value.str "a"] ++ [Value.num 7].set 0 (.num (-7))] ∧
    (make_reverse_circuit 3 exRevB).2 = .ok none :=
  reverse_negates_angle 0 exRevB "RX" [.str "a"] [.num 7] 7 0 "rotate_x"
    [] ⟨20, none⟩ exRXT 0
    (by with_unfolding_all rfl) (by with_unfolding_all rfl)
    (by with_unfolding_all decide) (by with_unfolding_all decide)
    (by with_unfolding_all decide)
    (by
      intro k hk
      have hks : k = "angle" := List.mem_singleton.mp hk
      subst hks
      exact ⟨by decide, by decide, fun j => Ne.symm (bit_append_ne_angle (toString j))⟩)
    (by with_unfolding_all decide) (by with_unfolding_all decide)
    (by with_unfolding_all decide) (by with_unfolding_all rfl)
    (by with_unfolding_all rfl) (by with_unfolding_all rfl)
    (by with_unfolding_all decide)

end QSOverlay
